import Mathlib

/-!
Shallow embedding of the apngasm build-specification reader
(`src/specreader/specreaderimpl.cpp`) and proofs about it.

Strings are modelled as `List Char`.  Library calls of the original code
(boost::lexical_cast, boost::regex, boost::property_tree, boost::filesystem)
are modelled by explicit Lean functions over explicit data; the filesystem
seen by the wildcard expansion is a `Filesystem` value holding the entries of
the pattern's parent directory.
-/

namespace apngasm
namespace specreader

/-- Modelled from the spec: `Delay` (declared in `apngframe.h`, which is not
among the sources) is a rational duration given by an unsigned numerator and
denominator.  The default constants `DEFAULT_FRAME_NUMERATOR` and
`DEFAULT_FRAME_DENOMINATOR` are likewise declared in `apngframe.h`; every
definition below takes them as explicit parameters `defN`, `defD`. -/
structure Delay where
  num : Nat
  den : Nat
deriving DecidableEq, Repr

/-- Modelled from the spec: `FrameInfo` (declared outside the given sources)
pairs an absolute file path with a `Delay`. -/
structure FrameInfo where
  filePath : List Char
  delay : Delay
deriving DecidableEq, Repr

/-- Value of a decimal digit string. -/
def digitsToNat (cs : List Char) : Nat :=
  cs.foldl (fun a c => a * 10 + (c.toNat - '0'.toNat)) 0

/-- The strings accepted by `boost::lexical_cast<unsigned int>`: nonempty,
all decimal digits, value below `2 ^ 32` (a 32-bit `unsigned int`). -/
def isUIntString (cs : List Char) : Bool :=
  !cs.isEmpty && cs.all Char.isDigit && decide (digitsToNat cs < 2 ^ 32)

/-- `s2u` of `specreaderimpl.cpp`: convert a string to an unsigned integer,
returning `defaultValue` when `boost::lexical_cast` throws
(empty, non-numeric or overflowing input). -/
def s2u (cs : List Char) (defaultValue : Nat) : Nat :=
  if isUIntString cs then digitsToNat cs else defaultValue

/-- First index of character `c` in a list: `std::string::find`. -/
def findChar (c : Char) : List Char → Option Nat
  | [] => none
  | d :: ds => if d = c then some 0 else (findChar c ds).map (· + 1)

/-- `str2delay` of `specreaderimpl.cpp`: split the token at the first `/`;
without a `/` the whole token is the numerator and the denominator is the
default; each side is converted by `s2u` with the corresponding default. -/
def str2delay (defN defD : Nat) (str : List Char) : Delay :=
  match findChar '/' str with
  | none => { num := s2u str defN, den := defD }
  | some index => { num := s2u (str.take index) defN
                    den := s2u (str.drop (index + 1)) defD }

/-- `boost::algorithm::iends_with`: case-insensitive suffix test. -/
def iendsWith (str suffix : List Char) : Bool :=
  (suffix.map Char.toLower).isSuffixOf (str.map Char.toLower)

/-- The image extension checked by `getFiles`. -/
def pngExt : List Char := ".png".data

/-- The character class of the `escape` regex in `getFiles`:
`[\^\.\$\|\(\)\[\]\+\?\\]`. -/
def escapeChars : List Char := ['^', '.', '$', '|', '(', ')', '[', ']', '+', '?', '\\']

/-- `regex_replace(path, escape, "\\$0")`: prefix a backslash to every
character of the escape class. -/
def regexEscape (cs : List Char) : List Char :=
  cs.flatMap fun c => if c ∈ escapeChars then ['\\', c] else [c]

/-- `regex_replace(path, wildcard, ".+")`: replace every `*` by `.+`. -/
def wildcardReplace (cs : List Char) : List Char :=
  cs.flatMap fun c => if c = '*' then ['.', '+'] else [c]

/-- A token of the regular expressions produced by `getFiles`: a literal
character, or `.+` (one or more arbitrary characters; the regex `.` is
modelled as matching every character). -/
inductive Tok where
  | lit (c : Char)
  | anyPlus
deriving DecidableEq, Repr

/-- Parser state for reading the produced regex strings: at a boundary,
after a backslash, after a bare `.` (expecting `+`), holding a pending
literal atom (on which a quantifier may still act), after the atom's `{`,
or inside the digits of an exact-count quantifier. -/
inductive PState where
  | start
  | esc
  | dot
  | atom (c : Char)
  | brOpen (c : Char)
  | brDigits (c : Char) (ds : List Char)
deriving DecidableEq, Repr

/-- State entered from a boundary on character `x`. -/
def startState (x : Char) : PState :=
  if x = '\\' then PState.esc
  else if x = '.' then PState.dot
  else PState.atom x

/-- One step of the regex reading: the tokens emitted and the next state.
The escape class of line 79 omits `{` and `}`, and boost::regex uses Perl
syntax, where an unescaped `{n}` after an atom is an exact-count
quantifier; it is modelled here by emitting `n` copies of the atom.  The
range forms `{n,}` and `{n,m}` and a quantifier following `.+` are read as
literals; every general matching theorem below therefore assumes a
brace-free path, so no statement relies on those unmodelled forms. -/
def pstep : PState → Char → List Tok × PState
  | PState.start, x => ([], startState x)
  | PState.esc, x => ([], PState.atom x)
  | PState.dot, x =>
    if x = '+' then ([Tok.anyPlus], PState.start) else ([Tok.lit '.'], startState x)
  | PState.atom c, x =>
    if x = '{' then ([], PState.brOpen c) else ([Tok.lit c], startState x)
  | PState.brOpen c, x =>
    if x.isDigit then ([], PState.brDigits c [x])
    else ([Tok.lit c, Tok.lit '{'], startState x)
  | PState.brDigits c ds, x =>
    if x.isDigit then ([], PState.brDigits c (ds ++ [x]))
    else if x = '}' then (List.replicate (digitsToNat ds) (Tok.lit c), PState.start)
    else (Tok.lit c :: Tok.lit '{' :: ds.map Tok.lit, startState x)

/-- Tokens still pending at the end of the regex string. -/
def pflush : PState → List Tok
  | PState.start => []
  | PState.esc => [Tok.lit '\\']
  | PState.dot => [Tok.lit '.']
  | PState.atom c => [Tok.lit c]
  | PState.brOpen c => [Tok.lit c, Tok.lit '{']
  | PState.brDigits c ds => Tok.lit c :: Tok.lit '{' :: ds.map Tok.lit

/-- Run the regex reading from a state over the rest of the string. -/
def runParse (st : PState) : List Char → List Tok
  | [] => pflush st
  | x :: xs => (pstep st x).1 ++ runParse (pstep st x).2 xs

/-- Reading of the produced regex strings from scratch: `\c` is the literal
`c`, `.+` is the one-or-more wildcard, `c{n}` repeats the literal `c`
exactly `n` times, and any other character is itself. -/
def regexParse (cs : List Char) : List Tok :=
  runParse PState.start cs

/-- The token reading of the `filter` regex that `getFiles` builds from an
absolute path. -/
def globTokens (absPath : List Char) : List Tok :=
  regexParse (wildcardReplace (regexEscape absPath))

/-- Matching loop of `tokMatch`, structurally recursive on the string:
an empty string is matched only by the empty pattern, a literal token
consumes its own character, and `.+` consumes one character and then
either stops or keeps consuming. -/
def tokMatchGo : List Char → List Tok → Bool
  | [], ts => ts.isEmpty
  | _ :: _, [] => false
  | d :: ds, Tok.lit c :: ts => c = d && tokMatchGo ds ts
  | _ :: ds, Tok.anyPlus :: ts => tokMatchGo ds ts || tokMatchGo ds (Tok.anyPlus :: ts)

/-- `boost::regex_match` (whole-string matching) for the produced patterns. -/
def tokMatch (ts : List Tok) (cs : List Char) : Bool :=
  tokMatchGo cs ts

/-- One entry of the directory enumerated by the wildcard branch of
`getFiles`: its full path and whether it is a regular file. -/
structure DirEntry where
  path : List Char
  isRegularFile : Bool
deriving DecidableEq, Repr

/-- The filesystem state consulted by the wildcard branch of `getFiles`:
whether the pattern's parent directory exists, and its entries (in
enumeration order). -/
structure Filesystem where
  parentExists : Bool
  entries : List DirEntry
deriving DecidableEq, Repr

/-- `getFiles` of `specreaderimpl.cpp`, taking the already absolute path
(`boost::filesystem::absolute` is resolution against the current directory
and is modelled as the identity on the resolved path).  Without a `*` the
path itself is returned, with `.png` appended unless already present
case-insensitively.  With a `*` the directory entries are filtered (regular
file, full-path regex match, case-insensitive `.png` extension) and sorted
lexicographically. -/
def getFiles (fs : Filesystem) (absPath : List Char) : List (List Char) :=
  if !absPath.contains '*' then
    if iendsWith absPath pngExt then [absPath] else [absPath ++ pngExt]
  else if !fs.parentExists then []
  else
    List.insertionSort (· ≤ ·)
      ((fs.entries.filter fun e =>
          e.isRegularFile && tokMatch (globTokens absPath) e.path
            && iendsWith e.path pngExt).map
        (fun e => e.path))

/-- One declaration of the `frames` list, as seen through the property tree:
a childless node is a bare path specification (its data), a node with
children is a single-key mapping whose front child maps a path
specification to an inline delay token. -/
inductive FrameDecl where
  | bare (file : List Char)
  | keyed (file : List Char) (token : List Char)
deriving DecidableEq, Repr

/-- The path specification of a frame declaration. -/
def FrameDecl.file : FrameDecl → List Char
  | .bare f => f
  | .keyed f _ => f

/-- The delay a frame declaration at positional index `i` receives:
a bare declaration takes `delays[i]` when `i < delays.length` and the
default delay otherwise; a single-key declaration parses its inline token. -/
def declDelay (delays : List Delay) (defaultDelay : Delay) (defN defD : Nat)
    (i : Nat) : FrameDecl → Delay
  | .bare _ =>
    if h : i < delays.length then delays.get ⟨i, h⟩ else defaultDelay
  | .keyed _ tok => str2delay defN defD tok

/-- The frame loop of `JsonSpecReader::JsonSpecReader` (lines 214-249):
walk the declarations with the running `delayIndex`, pick the delay per
declaration, expand its path specification with `resolve` (the `getFiles`
call under the ambient filesystem), and append one `FrameInfo` per expanded
file. -/
def buildFramesAux (resolve : List Char → List (List Char)) (delays : List Delay)
    (defaultDelay : Delay) (defN defD : Nat) : Nat → List FrameDecl → List FrameInfo
  | _, [] => []
  | delayIndex, frame :: rest =>
    let delay : Delay :=
      match frame with
      | .bare _ =>
        if h : delayIndex < delays.length then delays.get ⟨delayIndex, h⟩ else defaultDelay
      | .keyed _ tok => str2delay defN defD tok
    ((resolve frame.file).map fun p => { filePath := p, delay := delay })
      ++ buildFramesAux resolve delays defaultDelay defN defD (delayIndex + 1) rest

/-- The frame loop started with `delayIndex = 0`. -/
def buildFrames (resolve : List Char → List (List Char)) (delays : List Delay)
    (defaultDelay : Delay) (defN defD : Nat) (frames : List FrameDecl) : List FrameInfo :=
  buildFramesAux resolve delays defaultDelay defN defD 0 frames

/-- The decoded spec document: the optional scalar fields read through
`get_optional`, and the `delays` and `frames` children, `none` when the key
is absent (in which case `get_child` throws `ptree_bad_path`). -/
structure Document where
  name : Option (List Char)
  loops : Option Nat
  skip_first : Option Bool
  default_delay : Option (List Char)
  delays : Option (List (List Char))
  frames : Option (List FrameDecl)
deriving DecidableEq, Repr

/-- The result data of a successful load, as held by `AbstractSpecReader`. -/
structure BuildSpec where
  name : List Char
  loops : Nat
  skipFirst : Bool
  frameInfos : List FrameInfo
deriving DecidableEq, Repr

/-- The exceptions `boost::property_tree::ptree::get_child` throws out of
`JsonSpecReader::JsonSpecReader` when a required key is absent. -/
inductive LoadError where
  | missingDelays
  | missingFrames
deriving DecidableEq, Repr

/-- The default delay used by the builder: the parsed `default_delay` token
when present, the default constants otherwise. -/
def defaultDelayOf (defN defD : Nat) (doc : Document) : Delay :=
  match doc.default_delay with
  | some tok => str2delay defN defD tok
  | none => { num := defN, den := defD }

/-- `JsonSpecReader::JsonSpecReader` (lines 172-253) after `read_json`:
the current working directory is set to the spec file's directory, the
scalar fields are read with defaults, the `delays` and `frames` children are
iterated (throwing when absent), and the working directory is reset at the
end of the body.  The function returns the load result together with the
process working directory at exit: `specDir` on the throwing paths (the
reset at line 252 is skipped by the exception), `entryCwd` on success. -/
def jsonSpecLoad (resolve : List Char → List (List Char)) (defN defD : Nat)
    (doc : Document) (specDir entryCwd : List Char) :
    Except LoadError BuildSpec × List Char :=
  match doc.delays with
  | none => (Except.error LoadError.missingDelays, specDir)
  | some delayTokens =>
    match doc.frames with
    | none => (Except.error LoadError.missingFrames, specDir)
    | some frames =>
      let delays := delayTokens.map (str2delay defN defD)
      (Except.ok
        { name := doc.name.getD []
          loops := doc.loops.getD 0
          skipFirst := doc.skip_first.getD false
          frameInfos := buildFrames resolve delays (defaultDelayOf defN defD doc) defN defD frames },
        entryCwd)

end specreader
end apngasm

namespace apngasm
namespace specreader

/-- One step of the frame loop, expressed with `declDelay`. -/
theorem buildFramesAux_cons (resolve : List Char → List (List Char)) (delays : List Delay)
    (defaultDelay : Delay) (defN defD : Nat) (i : Nat) (d : FrameDecl) (rest : List FrameDecl) :
    buildFramesAux resolve delays defaultDelay defN defD i (d :: rest) =
      ((resolve d.file).map fun p =>
          { filePath := p, delay := declDelay delays defaultDelay defN defD i d })
        ++ buildFramesAux resolve delays defaultDelay defN defD (i + 1) rest := by
  cases d <;> simp [buildFramesAux, declDelay]

/-- The frame loop is the flattened per-declaration expansion, each
declaration taking the delay of its own position. -/
theorem buildFramesAux_eq (resolve : List Char → List (List Char)) (delays : List Delay)
    (defaultDelay : Delay) (defN defD : Nat) (i : Nat) (decls : List FrameDecl) :
    buildFramesAux resolve delays defaultDelay defN defD i decls =
      ((decls.enumFrom i).map fun x =>
        (resolve x.2.file).map fun p =>
          { filePath := p, delay := declDelay delays defaultDelay defN defD x.1 x.2 }).flatten := by
  induction decls generalizing i with
  | nil => simp [buildFramesAux]
  | cons d rest ih =>
    rw [buildFramesAux_cons, ih, List.enumFrom_cons]
    simp

/-- The frame loop splits over appended declaration lists, the second part
starting at the index past the first. -/
theorem buildFramesAux_append (resolve : List Char → List (List Char)) (delays : List Delay)
    (defaultDelay : Delay) (defN defD : Nat) (i : Nat) (l1 l2 : List FrameDecl) :
    buildFramesAux resolve delays defaultDelay defN defD i (l1 ++ l2) =
      buildFramesAux resolve delays defaultDelay defN defD i l1
        ++ buildFramesAux resolve delays defaultDelay defN defD (i + l1.length) l2 := by
  induction l1 generalizing i with
  | nil => simp [buildFramesAux]
  | cons d rest ih =>
    rw [List.cons_append, buildFramesAux_cons, buildFramesAux_cons, ih, List.append_assoc]
    have h : i + 1 + rest.length = i + (rest.length + 1) := by omega
    rw [h]
    simp

/-- C1.  Positional-delay rule: the built frame list is the flattened
expansion of the enumerated declarations, where the declaration at 0-indexed
position `N`, when bare, receives `delays[N]` if `N < delays.length` and
`defaultDelay` otherwise, and, when it carries an inline token, receives the
parsed token with the `delays` list not consulted; the position advances by
one per declaration in both cases. -/
theorem positional_delay_rule (resolve : List Char → List (List Char)) (delays : List Delay)
    (defaultDelay : Delay) (defN defD : Nat) (decls : List FrameDecl) :
    buildFrames resolve delays defaultDelay defN defD decls =
      (decls.enum.map fun x =>
        (resolve x.2.file).map fun p =>
          { filePath := p, delay := declDelay delays defaultDelay defN defD x.1 x.2 }).flatten
    ∧ (∀ i f, declDelay delays defaultDelay defN defD i (FrameDecl.bare f)
        = if h : i < delays.length then delays.get ⟨i, h⟩ else defaultDelay)
    ∧ (∀ i f tok, declDelay delays defaultDelay defN defD i (FrameDecl.keyed f tok)
        = str2delay defN defD tok) := by
  refine ⟨?_, fun i f => rfl, fun i f tok => rfl⟩
  rw [buildFrames, buildFramesAux_eq]
  rfl

/-- C2.  One slot per declaration: a declaration `d` after `pre` contributes
exactly one `FrameInfo` per file `resolve` expands it to, all sharing the
single delay of position `pre.length`, and the remaining declarations
continue at position `pre.length + 1` — the positional index advances once
per declaration, never per expanded file. -/
theorem one_slot_per_declaration (resolve : List Char → List (List Char)) (delays : List Delay)
    (defaultDelay : Delay) (defN defD : Nat) (pre : List FrameDecl) (d : FrameDecl)
    (post : List FrameDecl) :
    buildFrames resolve delays defaultDelay defN defD (pre ++ d :: post) =
        buildFrames resolve delays defaultDelay defN defD pre
          ++ ((resolve d.file).map fun p =>
              { filePath := p, delay := declDelay delays defaultDelay defN defD pre.length d })
          ++ buildFramesAux resolve delays defaultDelay defN defD (pre.length + 1) post
      ∧ ((resolve d.file).map fun p =>
          ({ filePath := p, delay := declDelay delays defaultDelay defN defD pre.length d }
            : FrameInfo)).length = (resolve d.file).length
      ∧ ∀ fi ∈ (resolve d.file).map fun p =>
          ({ filePath := p, delay := declDelay delays defaultDelay defN defD pre.length d }
            : FrameInfo),
          fi.delay = declDelay delays defaultDelay defN defD pre.length d := by
  refine ⟨?_, List.length_map _ _, ?_⟩
  · rw [buildFrames, buildFrames, buildFramesAux_append, buildFramesAux_cons, Nat.zero_add,
      List.append_assoc]
  · intro fi hfi
    obtain ⟨p, _, rfl⟩ := List.mem_map.mp hfi
    rfl

/-- C6.  A document without a `frames` child never loads: the constructor
throws (an error is reported to the caller) and no `BuildSpec` — in
particular no silently empty one — is produced. -/
theorem missing_frames_fatal (resolve : List Char → List (List Char)) (defN defD : Nat)
    (doc : Document) (specDir entryCwd : List Char) (h : doc.frames = none) :
    (∃ e, (jsonSpecLoad resolve defN defD doc specDir entryCwd).1 = Except.error e)
    ∧ ∀ bs, (jsonSpecLoad resolve defN defD doc specDir entryCwd).1 ≠ Except.ok bs := by
  cases hd : doc.delays with
  | none =>
    exact ⟨⟨LoadError.missingDelays, by simp [jsonSpecLoad, hd]⟩,
      fun bs => by simp [jsonSpecLoad, hd]⟩
  | some dt =>
    exact ⟨⟨LoadError.missingFrames, by simp [jsonSpecLoad, hd, h]⟩,
      fun bs => by simp [jsonSpecLoad, hd, h]⟩

/-- C6 witness: a concrete document with `delays` present and `frames`
absent fails with an error. -/
theorem missing_frames_fatal_witness :
    ∃ e, (jsonSpecLoad (fun f => [f]) 100 1000
        { name := none, loops := none, skip_first := none, default_delay := none,
          delays := some [], frames := none }
        "/spec".data "/orig".data).1 = Except.error e :=
  (missing_frames_fatal (fun f => [f]) 100 1000
    { name := none, loops := none, skip_first := none, default_delay := none,
      delays := some [], frames := none }
    "/spec".data "/orig".data rfl).1

end specreader
end apngasm

namespace apngasm
namespace specreader

/-- C7 counterexample: a concrete document with the `delays` key absent and
a well-formed `frames` list does not load — `get_child("delays")` throws —
contradicting the claim that a missing `delays` field defaults to the empty
list and the load succeeds. -/
theorem missing_delays_defaulted_cex :
    ((jsonSpecLoad (fun f => [f]) 100 1000
        { name := none, loops := none, skip_first := none, default_delay := none,
          delays := none, frames := some [FrameDecl.bare "a".data] }
        "/spec".data "/orig".data).1 = Except.error LoadError.missingDelays)
    ∧ ¬ ∃ bs, (jsonSpecLoad (fun f => [f]) 100 1000
        { name := none, loops := none, skip_first := none, default_delay := none,
          delays := none, frames := some [FrameDecl.bare "a".data] }
        "/spec".data "/orig".data).1 = Except.ok bs := by
  refine ⟨rfl, ?_⟩
  rintro ⟨bs, hbs⟩
  simp [jsonSpecLoad] at hbs

/-- C7 amended: an absent `delays` key is fatal (the load reports the
missing-delays error); a `delays` key present as an empty list loads, and
with it every bare frame declaration receives the default delay. -/
theorem missing_delays_fatal (resolve : List Char → List (List Char)) (defN defD : Nat)
    (doc : Document) (specDir entryCwd : List Char) :
    (doc.delays = none →
      (jsonSpecLoad resolve defN defD doc specDir entryCwd).1
        = Except.error LoadError.missingDelays)
    ∧ (∀ decls, doc.delays = some [] → doc.frames = some decls →
        (jsonSpecLoad resolve defN defD doc specDir entryCwd).1 =
          Except.ok { name := doc.name.getD [], loops := doc.loops.getD 0,
                      skipFirst := doc.skip_first.getD false,
                      frameInfos :=
                        buildFrames resolve [] (defaultDelayOf defN defD doc) defN defD decls })
    ∧ ∀ i f, declDelay [] (defaultDelayOf defN defD doc) defN defD i (FrameDecl.bare f)
        = defaultDelayOf defN defD doc := by
  refine ⟨fun hd => by simp [jsonSpecLoad, hd], fun decls hd hf => by simp [jsonSpecLoad, hd, hf],
    fun i f => by simp [declDelay]⟩

/-- C7 amended witness: a concrete document with `delays` given as the empty
list and one bare frame loads, the frame receiving the default delay. -/
theorem missing_delays_fatal_witness :
    (jsonSpecLoad (fun f => [f]) 100 1000
        { name := none, loops := none, skip_first := none, default_delay := none,
          delays := some [], frames := some [FrameDecl.bare "a".data] }
        "/spec".data "/orig".data).1 =
      Except.ok { name := [], loops := 0, skipFirst := false,
                  frameInfos := [{ filePath := "a".data, delay := { num := 100, den := 1000 } }] } :=
  (missing_delays_fatal (fun f => [f]) 100 1000
    { name := none, loops := none, skip_first := none, default_delay := none,
      delays := some [], frames := some [FrameDecl.bare "a".data] }
    "/spec".data "/orig".data).2.1 [FrameDecl.bare "a".data] rfl rfl

/-- C8 counterexample: a load that fails on the missing `delays` key leaves
the process working directory at the spec file's directory, not at its value
on entry — the reset at the end of the constructor body is skipped by the
exception. -/
theorem cwd_not_restored_cex :
    ((jsonSpecLoad (fun f => [f]) 100 1000
        { name := none, loops := none, skip_first := none, default_delay := none,
          delays := none, frames := some [] }
        "/spec/dir".data "/orig".data).2 = "/spec/dir".data)
    ∧ "/spec/dir".data ≠ "/orig".data := ⟨rfl, by decide⟩

/-- C8 amended: the working directory is restored to its entry value exactly
on the successful paths; on the throwing paths (missing `delays` or `frames`
key) it is left at the spec file's directory. -/
theorem cwd_restored_on_success_only (resolve : List Char → List (List Char)) (defN defD : Nat)
    (doc : Document) (specDir entryCwd : List Char) :
    (∀ bs, (jsonSpecLoad resolve defN defD doc specDir entryCwd).1 = Except.ok bs →
        (jsonSpecLoad resolve defN defD doc specDir entryCwd).2 = entryCwd)
    ∧ ∀ e, (jsonSpecLoad resolve defN defD doc specDir entryCwd).1 = Except.error e →
        (jsonSpecLoad resolve defN defD doc specDir entryCwd).2 = specDir := by
  cases hd : doc.delays with
  | none => simp [jsonSpecLoad, hd]
  | some dt =>
    cases hf : doc.frames with
    | none => simp [jsonSpecLoad, hd, hf]
    | some decls => simp [jsonSpecLoad, hd, hf]

/-- C8 amended witness: a concrete successful load hands the entry working
directory back. -/
theorem cwd_restored_on_success_only_witness :
    (jsonSpecLoad (fun f => [f]) 100 1000
        { name := none, loops := none, skip_first := none, default_delay := none,
          delays := some [], frames := some [] }
        "/spec/dir".data "/orig".data).2 = "/orig".data :=
  (cwd_restored_on_success_only (fun f => [f]) 100 1000
    { name := none, loops := none, skip_first := none, default_delay := none,
      delays := some [], frames := some [] }
    "/spec/dir".data "/orig".data).1
    { name := [], loops := 0, skipFirst := false, frameInfos := [] } rfl

end specreader
end apngasm

namespace apngasm
namespace specreader

/-- `findChar` misses exactly when the character is absent. -/
theorem findChar_eq_none {c : Char} {l : List Char} (h : c ∉ l) : findChar c l = none := by
  induction l with
  | nil => rfl
  | cons d ds ih =>
    simp only [List.mem_cons, not_or] at h
    rw [findChar, if_neg fun hh => h.1 hh.symm, ih h.2]
    rfl

/-- `findChar` returns the first occurrence: on `l ++ c :: r` with `c`
absent from `l` it returns `l.length`. -/
theorem findChar_append {c : Char} (l r : List Char) (h : c ∉ l) :
    findChar c (l ++ c :: r) = some l.length := by
  induction l with
  | nil => simp [findChar]
  | cons d ds ih =>
    simp only [List.mem_cons, not_or] at h
    rw [List.cons_append, findChar, if_neg fun hh => h.1 hh.symm, ih h.2]
    rfl

/-- `s2u` on an accepted string is its numeric value. -/
theorem s2u_of_digits {cs : List Char} (h : isUIntString cs = true) (d : Nat) :
    s2u cs d = digitsToNat cs := by
  simp [s2u, h]

/-- `s2u` on a rejected string is the default. -/
theorem s2u_of_bad {cs : List Char} (h : isUIntString cs = false) (d : Nat) :
    s2u cs d = d := by
  simp [s2u, h]

/-- A token without `/` is entirely the numerator; the denominator defaults. -/
theorem str2delay_no_slash {str : List Char} (defN defD : Nat) (h : '/' ∉ str) :
    str2delay defN defD str = { num := s2u str defN, den := defD } := by
  rw [str2delay, findChar_eq_none h]

/-- A token with a `/` is split at its first occurrence, each side converted
with its own default. -/
theorem str2delay_split (defN defD : Nat) (l r : List Char) (h : '/' ∉ l) :
    str2delay defN defD (l ++ '/' :: r) = { num := s2u l defN, den := s2u r defD } := by
  rw [str2delay, findChar_append l r h]
  have ht : (l ++ '/' :: r).take l.length = l := List.take_left l ('/' :: r)
  have hd : (l ++ '/' :: r).drop (l.length + 1) = r := by
    have : l ++ '/' :: r = (l ++ ['/']) ++ r := by simp
    rw [this]
    have hlen : (l ++ ['/']).length = l.length + 1 := by simp
    rw [← hlen, List.drop_left]
  dsimp only
  rw [ht, hd]

/-- C3.  `str2delay` is total and never errors: the stated sample values
hold for every choice of the default constants, a token without `/` is
converted wholesale into the numerator with the default denominator, and a
token with `/` is split at the first occurrence with each side converted and
the corresponding default substituted on failure. -/
theorem str2delay_total_spec (defN defD : Nat) :
    str2delay defN defD "12".data = { num := 12, den := defD }
    ∧ str2delay defN defD "1/30".data = { num := 1, den := 30 }
    ∧ str2delay defN defD "x/30".data = { num := defN, den := 30 }
    ∧ str2delay defN defD "".data = { num := defN, den := defD }
    ∧ (∀ str : List Char, '/' ∉ str →
        str2delay defN defD str = { num := s2u str defN, den := defD })
    ∧ ∀ l r : List Char, '/' ∉ l →
        str2delay defN defD (l ++ '/' :: r) = { num := s2u l defN, den := s2u r defD } := by
  refine ⟨?_, ?_, ?_, ?_, fun str h => str2delay_no_slash defN defD h,
    fun l r h => str2delay_split defN defD l r h⟩
  · rw [str2delay_no_slash defN defD (by decide), s2u_of_digits (by decide),
      show digitsToNat "12".data = 12 from by decide]
  · have h : "1/30".data = ['1'] ++ '/' :: ['3', '0'] := rfl
    rw [h, str2delay_split defN defD _ _ (by decide), s2u_of_digits (by decide),
      s2u_of_digits (by decide)]
    decide
  · have h : "x/30".data = ['x'] ++ '/' :: ['3', '0'] := rfl
    rw [h, str2delay_split defN defD _ _ (by decide), s2u_of_bad (by decide),
      s2u_of_digits (by decide), show digitsToNat ['3', '0'] = 30 from by decide]
  · rw [str2delay_no_slash defN defD (by decide), s2u_of_bad (by decide)]

/-- C3 witness: the split rule applied at a concrete token evaluates as
stated. -/
theorem str2delay_total_spec_witness :
    str2delay 100 1000 ('a' :: '/' :: ['b']) = { num := 100, den := 1000 } :=
  ((str2delay_total_spec 100 1000).2.2.2.2.2 ['a'] ['b'] (by decide)).trans (by decide)

end specreader
end apngasm

namespace apngasm
namespace specreader

/-- The non-wildcard branch of `getFiles`, closed form. -/
theorem getFiles_of_no_star {absPath : List Char} (fs : Filesystem)
    (h : absPath.contains '*' = false) :
    getFiles fs absPath =
      [if iendsWith absPath pngExt then absPath else absPath ++ pngExt] := by
  rw [getFiles, h]
  cases hi : iendsWith absPath pngExt <;> simp [hi]

/-- C4.  Non-wildcard path resolution: a path specification without `*`
resolves to exactly the one-element sequence holding the path, with `.png`
appended exactly when the path does not already end in `.png`
case-insensitively. -/
theorem nonwildcard_resolution (fs : Filesystem) (absPath : List Char)
    (h : absPath.contains '*' = false) :
    getFiles fs absPath =
        [if iendsWith absPath pngExt then absPath else absPath ++ pngExt]
    ∧ (getFiles fs absPath).length = 1 := by
  refine ⟨getFiles_of_no_star fs h, ?_⟩
  rw [getFiles_of_no_star fs h]
  rfl

/-- C4 witness: the extensionless spec resolves to exactly the single path
with `.png` appended, and a spec already ending in `.PNG` is kept as is. -/
theorem nonwildcard_resolution_witness :
    getFiles { parentExists := false, entries := [] } "/base/frame1".data
      = ["/base/frame1.png".data] :=
  ((nonwildcard_resolution { parentExists := false, entries := [] }
    "/base/frame1".data (by decide)).1).trans (by decide)

/-- C10.  Non-wildcard resolution never consults the filesystem: for a path
specification without `*` the result is the same singleton under every
filesystem — in particular under one where no file exists at all — and a
bare frame declaration over it builds exactly one `FrameInfo`, never an
error or an empty expansion. -/
theorem nonwildcard_ignores_filesystem (fs fs' : Filesystem) (absPath : List Char)
    (h : absPath.contains '*' = false) (delays : List Delay) (defaultDelay : Delay)
    (defN defD : Nat) :
    getFiles fs absPath = getFiles fs' absPath
    ∧ (buildFrames (fun f => getFiles fs f) delays defaultDelay defN defD
        [FrameDecl.bare absPath]).length = 1 := by
  constructor
  · rw [getFiles_of_no_star fs h, getFiles_of_no_star fs' h]
  · rw [buildFrames, buildFramesAux_cons, buildFramesAux]
    simp [FrameDecl.file, getFiles_of_no_star fs h]

/-- C10 witness: a bare path resolves identically under an empty filesystem
and under one where the target file exists; no existence check happens. -/
theorem nonwildcard_ignores_filesystem_witness :
    getFiles { parentExists := false, entries := [] } "/x/a".data
      = getFiles
          { parentExists := true
            entries := [{ path := "/x/a.png".data, isRegularFile := true }] }
          "/x/a".data
    ∧ (buildFrames
        (fun f => getFiles { parentExists := false, entries := [] } f)
        [] { num := 100, den := 1000 } 100 1000
        [FrameDecl.bare "/x/a".data]).length = 1 :=
  ⟨(nonwildcard_ignores_filesystem { parentExists := false, entries := [] }
      { parentExists := true
        entries := [{ path := "/x/a.png".data, isRegularFile := true }] }
      "/x/a".data (by decide) [] { num := 100, den := 1000 } 100 1000).1,
    (nonwildcard_ignores_filesystem { parentExists := false, entries := [] }
      { parentExists := true
        entries := [{ path := "/x/a.png".data, isRegularFile := true }] }
      "/x/a".data (by decide) [] { num := 100, den := 1000 } 100 1000).2⟩

end specreader
end apngasm

namespace apngasm
namespace specreader

/-- `regexEscape` unfolded one character. -/
theorem regexEscape_cons (c : Char) (cs : List Char) :
    regexEscape (c :: cs) =
      (if c ∈ escapeChars then ['\\', c] else [c]) ++ regexEscape cs := by
  simp [regexEscape]

/-- `wildcardReplace` distributes over append. -/
theorem wildcardReplace_append (l r : List Char) :
    wildcardReplace (l ++ r) = wildcardReplace l ++ wildcardReplace r := by
  simp [wildcardReplace]

/-- `wildcardReplace` unfolded one character. -/
theorem wildcardReplace_cons (c : Char) (cs : List Char) :
    wildcardReplace (c :: cs) =
      (if c = '*' then ['.', '+'] else [c]) ++ wildcardReplace cs := by
  simp [wildcardReplace]

/-- A pending literal atom not followed by `{` is emitted as itself. -/
theorem runParse_atom (c : Char) (rest : List Char) (h : rest.head? ≠ some '{') :
    runParse (PState.atom c) rest = Tok.lit c :: runParse PState.start rest := by
  cases rest with
  | nil => rfl
  | cons y ys =>
    have hy : y ≠ '{' := by
      intro hh
      rw [hh] at h
      exact h rfl
    simp [runParse, pstep, hy]

/-- A leading backslash escapes the next character; with no quantifier
following, the escaped character is the literal itself. -/
theorem runParse_backslash (d : Char) (rest : List Char) (h : rest.head? ≠ some '{') :
    runParse PState.start ('\\' :: d :: rest) = Tok.lit d :: runParse PState.start rest := by
  have h1 : runParse PState.start ('\\' :: d :: rest) = runParse (PState.atom d) rest := by
    simp [runParse, pstep, startState]
  rw [h1, runParse_atom d rest h]

/-- A leading `.+` is the one-or-more wildcard token. -/
theorem runParse_dot_plus (rest : List Char) :
    runParse PState.start ('.' :: '+' :: rest) = Tok.anyPlus :: runParse PState.start rest := by
  simp [runParse, pstep, startState]

/-- Any other leading character, not followed by `{`, is read as itself. -/
theorem runParse_plain {c : Char} (h1 : c ≠ '\\') (h2 : c ≠ '.') (rest : List Char)
    (h : rest.head? ≠ some '{') :
    runParse PState.start (c :: rest) = Tok.lit c :: runParse PState.start rest := by
  have hs : runParse PState.start (c :: rest) = runParse (PState.atom c) rest := by
    simp [runParse, pstep, startState, h1, h2]
  rw [hs, runParse_atom c rest h]

/-- The regex string built from a path without `{` never starts with `{`. -/
theorem pipeline_head_ne_brace {p : List Char} (h : '{' ∉ p) :
    (wildcardReplace (regexEscape p)).head? ≠ some '{' := by
  cases p with
  | nil => simp [regexEscape, wildcardReplace]
  | cons c cs =>
    rw [regexEscape_cons]
    by_cases h1 : c ∈ escapeChars
    · rw [if_pos h1]
      simp [wildcardReplace_cons]
    · by_cases h2 : c = '*'
      · subst h2
        rw [if_neg h1]
        simp [wildcardReplace_cons]
      · have hc : c ≠ '{' := by
          intro hh
          rw [hh] at h
          exact h (List.mem_cons_self _ _)
        rw [if_neg h1]
        simp [wildcardReplace_cons, h2, hc]

/-- The escape-then-replace pipeline of `getFiles`, on a path free of `{`,
reads back as: every non-`*` character of the path is a literal token and
every `*` is the one-or-more wildcard token. -/
theorem globTokens_eq_map (p : List Char) (hbr : '{' ∉ p) :
    globTokens p = p.map fun c => if c = '*' then Tok.anyPlus else Tok.lit c := by
  induction p with
  | nil => rfl
  | cons c cs ih =>
    have hbr' : '{' ∉ cs := fun hh => hbr (List.mem_cons_of_mem _ hh)
    have ih' : runParse PState.start (wildcardReplace (regexEscape cs)) =
        cs.map fun c => if c = '*' then Tok.anyPlus else Tok.lit c := ih hbr'
    have hhead := pipeline_head_ne_brace hbr'
    by_cases h1 : c ∈ escapeChars
    · have h2 : c ≠ '*' := by
        intro hh
        rw [hh] at h1
        exact absurd h1 (by decide)
      have hseg : wildcardReplace (regexEscape (c :: cs)) =
          '\\' :: c :: wildcardReplace (regexEscape cs) := by
        rw [regexEscape_cons, if_pos h1, wildcardReplace_append,
          show wildcardReplace ['\\', c] = ['\\', c] from by simp [wildcardReplace, h2]]
        rfl
      rw [show globTokens (c :: cs)
            = runParse PState.start (wildcardReplace (regexEscape (c :: cs))) from rfl,
        hseg, runParse_backslash c _ hhead, ih', List.map_cons, if_neg h2]
    · by_cases h2 : c = '*'
      · subst h2
        have hseg : wildcardReplace (regexEscape ('*' :: cs)) =
            '.' :: '+' :: wildcardReplace (regexEscape cs) := by
          rw [regexEscape_cons, if_neg h1, wildcardReplace_append]
          rfl
        rw [show globTokens ('*' :: cs)
              = runParse PState.start (wildcardReplace (regexEscape ('*' :: cs))) from rfl,
          hseg, runParse_dot_plus, ih', List.map_cons, if_pos rfl]
      · have h3 : c ≠ '\\' := by
          intro hh
          rw [hh] at h1
          exact absurd h1 (by decide)
        have h4 : c ≠ '.' := by
          intro hh
          rw [hh] at h1
          exact absurd h1 (by decide)
        have hseg : wildcardReplace (regexEscape (c :: cs)) =
            c :: wildcardReplace (regexEscape cs) := by
          rw [regexEscape_cons, if_neg h1, wildcardReplace_append,
            show wildcardReplace [c] = [c] from by simp [wildcardReplace, h2]]
          rfl
        rw [show globTokens (c :: cs)
              = runParse PState.start (wildcardReplace (regexEscape (c :: cs))) from rfl,
          hseg, runParse_plain h3 h4 _ hhead, ih', List.map_cons, if_neg h2]

/-- A match consumes at least one character per token. -/
theorem tokMatchGo_length {cs : List Char} {ts : List Tok}
    (h : tokMatchGo cs ts = true) : ts.length ≤ cs.length := by
  induction cs generalizing ts with
  | nil =>
    cases ts with
    | nil => exact Nat.le_refl 0
    | cons t ts' => exact absurd h (by simp [tokMatchGo])
  | cons d ds ih =>
    cases ts with
    | nil => exact Nat.zero_le _
    | cons t ts' =>
      cases t with
      | lit c =>
        rw [tokMatchGo, Bool.and_eq_true] at h
        exact Nat.succ_le_succ (ih h.2)
      | anyPlus =>
        rw [tokMatchGo, Bool.or_eq_true] at h
        cases h with
        | inl h => exact Nat.succ_le_succ (ih h)
        | inr h => exact Nat.le_succ_of_le (ih h)

/-- A pattern of literal tokens matches exactly its own string. -/
theorem tokMatchGo_lits (p : List Char) (s : List Char) :
    tokMatchGo s (p.map Tok.lit) = true ↔ s = p := by
  induction p generalizing s with
  | nil =>
    cases s with
    | nil => simp [tokMatchGo]
    | cons d ds => simp [tokMatchGo]
  | cons c p' ih =>
    cases s with
    | nil => simp [tokMatchGo]
    | cons d ds =>
      rw [List.map_cons, tokMatchGo, Bool.and_eq_true]
      simp [ih, eq_comm, And.comm]

/-- Literal tokens pass through a shared prefix of the string. -/
theorem tokMatchGo_lit_prefix (p : List Char) (s : List Char) (ts : List Tok) :
    tokMatchGo (p ++ s) (p.map Tok.lit ++ ts) = tokMatchGo s ts := by
  induction p with
  | nil => rfl
  | cons c p' ih =>
    rw [List.cons_append, List.map_cons, List.cons_append, tokMatchGo]
    simp [ih]

/-- The one-or-more token absorbs any nonempty prefix of the string. -/
theorem tokMatchGo_anyPlus_absorb {m : List Char} (s : List Char) (ts : List Tok)
    (hm : m ≠ []) (h : tokMatchGo s ts = true) :
    tokMatchGo (m ++ s) (Tok.anyPlus :: ts) = true := by
  induction m with
  | nil => exact absurd rfl hm
  | cons c m' ih =>
    rw [List.cons_append, tokMatchGo, Bool.or_eq_true]
    cases hm' : m' with
    | nil =>
      subst hm'
      exact Or.inl h
    | cons e es =>
      refine Or.inr ?_
      rw [← hm']
      exact ih (by simp [hm'])

/-- C9 counterexample: the escape class of line 79 omits the braces, and an
unescaped `{2}` is an exact-count quantifier under boost's Perl syntax: the
wildcard specification `a{2}*.png` matches `aaX.png` — the `a` is doubled —
and does not match `a{2}X.png`, so the path characters `{`, `2`, `}` do not
match only themselves, and the produced pattern is not the literal-per-
character reading the claim asserts. -/
theorem wildcard_escape_brace_cex :
    tokMatch (globTokens "a{2}*.png".data) "aaX.png".data = true
    ∧ tokMatch (globTokens "a{2}*.png".data) "a{2}X.png".data = false
    ∧ globTokens "a{2}*.png".data
        ≠ "a{2}*.png".data.map fun c => if c = '*' then Tok.anyPlus else Tok.lit c := by
  refine ⟨by decide, by decide, by decide⟩

/-- C9 amended: the code escapes the fixed metacharacter class of line 79 —
which omits `{` and `}` — and replaces each `*` by a one-or-more pattern.
For every wildcard specification containing no `{`, the produced pattern
reads as literal tokens for every non-`*` character and a one-or-more token
for every `*`; a star-free such pattern matches exactly the path itself
(every other character matches only itself), a pattern with a `*` matches
the surrounding literals around any nonempty middle, and it never matches
the string in which the `*` consumed zero characters.  An unescaped `{n}`
after a path character is instead a quantifier repeating that character. -/
theorem wildcard_pattern_semantics_no_braces :
    (∀ absPath : List Char, '{' ∉ absPath →
        globTokens absPath = absPath.map fun c => if c = '*' then Tok.anyPlus else Tok.lit c)
    ∧ (∀ p s : List Char, '*' ∉ p → '{' ∉ p →
        (tokMatch (globTokens p) s = true ↔ s = p))
    ∧ (∀ l r m : List Char, '*' ∉ l → '*' ∉ r → '{' ∉ l → '{' ∉ r → m ≠ [] →
        tokMatch (globTokens (l ++ '*' :: r)) (l ++ m ++ r) = true)
    ∧ ∀ l r : List Char, '{' ∉ l → '{' ∉ r →
        tokMatch (globTokens (l ++ '*' :: r)) (l ++ r) = false := by
  have hmap : ∀ (p : List Char), '*' ∉ p →
      (p.map fun c => if c = '*' then Tok.anyPlus else Tok.lit c) = p.map Tok.lit := by
    intro p hp
    induction p with
    | nil => rfl
    | cons c cs ih =>
      simp only [List.mem_cons, not_or] at hp
      rw [List.map_cons, List.map_cons, if_neg fun hh => hp.1 hh.symm, ih hp.2]
  have hbrall : ∀ l r : List Char, '{' ∉ l → '{' ∉ r → '{' ∉ l ++ '*' :: r := by
    intro l r hbl hbr hh
    rcases List.mem_append.mp hh with h | h
    · exact hbl h
    · rcases List.mem_cons.mp h with h | h
      · exact absurd h (by decide)
      · exact hbr h
  refine ⟨globTokens_eq_map, ?_, ?_, ?_⟩
  · intro p s hp hbp
    rw [tokMatch, globTokens_eq_map p hbp, hmap p hp, tokMatchGo_lits]
  · intro l r m hl hr hbl hbr hm
    rw [tokMatch, globTokens_eq_map _ (hbrall l r hbl hbr)]
    have hsplit :
        ((l ++ '*' :: r).map fun c => if c = '*' then Tok.anyPlus else Tok.lit c) =
          l.map Tok.lit ++ Tok.anyPlus :: r.map Tok.lit := by
      rw [List.map_append, List.map_cons, hmap l hl, hmap r hr, if_pos rfl]
    rw [hsplit, List.append_assoc, tokMatchGo_lit_prefix]
    exact tokMatchGo_anyPlus_absorb r (r.map Tok.lit) hm ((tokMatchGo_lits r r).mpr rfl)
  · intro l r hbl hbr
    cases htm : tokMatch (globTokens (l ++ '*' :: r)) (l ++ r) with
    | false => rfl
    | true =>
      exfalso
      rw [tokMatch] at htm
      have hlen := tokMatchGo_length htm
      rw [globTokens_eq_map _ (hbrall l r hbl hbr)] at hlen
      simp only [List.length_map, List.length_append, List.length_cons] at hlen
      omega

/-- C9 amended witness: the brace-free pattern built from `a*b` matches
`aXYb` with the `*` consuming the two middle characters. -/
theorem wildcard_pattern_semantics_no_braces_witness :
    tokMatch (globTokens ('a' :: '*' :: ['b'])) ('a' :: 'X' :: 'Y' :: ['b']) = true :=
  wildcard_pattern_semantics_no_braces.2.2.1 ['a'] ['b'] ['X', 'Y']
    (by decide) (by decide) (by decide) (by decide) (by decide)

end specreader
end apngasm

namespace apngasm
namespace specreader

/-- The wildcard branch of `getFiles` when the parent directory is missing. -/
theorem getFiles_star_no_parent {absPath : List Char} {fs : Filesystem}
    (h : absPath.contains '*' = true) (hp : fs.parentExists = false) :
    getFiles fs absPath = [] := by
  rw [getFiles, h, hp]
  rfl

/-- The wildcard branch of `getFiles` with an existing parent directory:
filter the entries and sort. -/
theorem getFiles_star {absPath : List Char} {fs : Filesystem}
    (h : absPath.contains '*' = true) (hp : fs.parentExists = true) :
    getFiles fs absPath =
      List.insertionSort (· ≤ ·)
        ((fs.entries.filter fun e =>
            e.isRegularFile && tokMatch (globTokens absPath) e.path
              && iendsWith e.path pngExt).map
          (fun e => e.path)) := by
  rw [getFiles, h, hp]
  rfl

/-- C5.  Wildcard path resolution is deterministic: the result is sorted
lexicographically ascending, it is unchanged under any permutation of the
directory enumeration, and on a directory holding `b.png, a.png, c.png` the
pattern `*.png` yields exactly `[a.png, b.png, c.png]`. -/
theorem wildcard_resolution_deterministic (fs fs' : Filesystem) (absPath : List Char)
    (hw : absPath.contains '*' = true) (hex : fs.parentExists = fs'.parentExists)
    (hperm : fs.entries.Perm fs'.entries) :
    List.Sorted (· ≤ ·) (getFiles fs absPath)
    ∧ getFiles fs absPath = getFiles fs' absPath
    ∧ getFiles
        { parentExists := true
          entries := [{ path := "/d/b.png".data, isRegularFile := true },
                      { path := "/d/a.png".data, isRegularFile := true },
                      { path := "/d/c.png".data, isRegularFile := true }] }
        "/d/*.png".data
      = ["/d/a.png".data, "/d/b.png".data, "/d/c.png".data] := by
  refine ⟨?_, ?_, by decide⟩
  · cases hp : fs.parentExists with
    | false =>
      rw [getFiles_star_no_parent hw hp]
      exact List.sorted_nil
    | true =>
      rw [getFiles_star hw hp]
      exact List.sorted_insertionSort _ _
  · cases hp : fs.parentExists with
    | false =>
      have hp' : fs'.parentExists = false := by rw [← hex]; exact hp
      rw [getFiles_star_no_parent hw hp, getFiles_star_no_parent hw hp']
    | true =>
      have hp' : fs'.parentExists = true := by rw [← hex]; exact hp
      rw [getFiles_star hw hp, getFiles_star hw hp']
      have pXY :
          ((fs.entries.filter fun e =>
              e.isRegularFile && tokMatch (globTokens absPath) e.path
                && iendsWith e.path pngExt).map (fun e => e.path)).Perm
            ((fs'.entries.filter fun e =>
              e.isRegularFile && tokMatch (globTokens absPath) e.path
                && iendsWith e.path pngExt).map (fun e => e.path)) :=
        (hperm.filter _).map _
      exact List.eq_of_perm_of_sorted
        ((List.perm_insertionSort _ _).trans (pXY.trans (List.perm_insertionSort _ _).symm))
        (List.sorted_insertionSort _ _) (List.sorted_insertionSort _ _)

/-- C5 witness: two enumeration orders of the same directory produce the
same sorted expansion. -/
theorem wildcard_resolution_deterministic_witness :
    getFiles
        { parentExists := true
          entries := [{ path := "/d/b.png".data, isRegularFile := true },
                      { path := "/d/a.png".data, isRegularFile := true },
                      { path := "/d/c.png".data, isRegularFile := true }] }
        "/d/*.png".data
      = getFiles
          { parentExists := true
            entries := [{ path := "/d/a.png".data, isRegularFile := true },
                        { path := "/d/c.png".data, isRegularFile := true },
                        { path := "/d/b.png".data, isRegularFile := true }] }
          "/d/*.png".data :=
  (wildcard_resolution_deterministic
    { parentExists := true
      entries := [{ path := "/d/b.png".data, isRegularFile := true },
                  { path := "/d/a.png".data, isRegularFile := true },
                  { path := "/d/c.png".data, isRegularFile := true }] }
    { parentExists := true
      entries := [{ path := "/d/a.png".data, isRegularFile := true },
                  { path := "/d/c.png".data, isRegularFile := true },
                  { path := "/d/b.png".data, isRegularFile := true }] }
    "/d/*.png".data (by decide) rfl (by decide)).2.1

end specreader
end apngasm
